import Mathlib

set_option maxHeartbeats 1000000

/-!
Shallow embedding of `src/fourth.rs`: a doubly-linked deque built from
`Rc<RefCell<Node<T>>>` handles.  Allocation is modelled by a heap: a finite
association list from addresses (`Nat`) to nodes, together with a fresh-address
counter.  An `Rc` handle is modelled by the address it points to; the strong
count of an allocation is the number of handles to it stored in the state
(the `head`/`tail` anchors and every node's `prev`/`next` field).  The
`Rc::try_unwrap(..).ok().unwrap()` in `pop_front`/`pop_back` succeeds exactly
when the local handle being unwrapped is the sole owner, i.e. when the number
of handles still stored in the state is zero; a failure of that check is a
panic, modelled as `Except.error`.
-/

namespace Fourth

variable {α : Type}

/-- `Node<T>`: `elem: T, prev: Link<T>, next: Link<T>`, with a `Link`
modelled as an optional address. -/
structure Node (α : Type) where
  elem : α
  prev : Option Nat
  next : Option Nat
  deriving DecidableEq

/-- The modelled memory: an association list from addresses to nodes. -/
abbrev Heap (α : Type) := List (Nat × Node α)

/-- An abstract chain: the addresses of the list's nodes in front-to-back
order, paired with the elements they hold. -/
abbrev Chain (α : Type) := List (Nat × α)

/-- A sequence of values. -/
abbrev Vals (α : Type) := List α

/-- One public mutating operation of `List<T>`. -/
inductive Op (α : Type) where
  | pushF (e : α)
  | pushB (e : α)
  | popF
  | popB
  deriving DecidableEq

/-- A sequence of operations. -/
abbrev Ops (α : Type) := List (Op α)

/-- Dereference a handle: find the node stored at address `a`. -/
def hlookup (a : Nat) : Heap α → Option (Node α)
  | [] => none
  | (k, n) :: rest => if k = a then some n else hlookup a rest

/-- Write the `prev` field of the node at address `a` (models
`node.borrow_mut().prev = p` / `.prev.take()`). -/
def setPrev (h : Heap α) (a : Nat) (p : Option Nat) : Heap α :=
  h.map fun kn => (kn.1, if kn.1 = a then { kn.2 with prev := p } else kn.2)

/-- Write the `next` field of the node at address `a`. -/
def setNext (h : Heap α) (a : Nat) (p : Option Nat) : Heap α :=
  h.map fun kn => (kn.1, if kn.1 = a then { kn.2 with next := p } else kn.2)

/-- Write the `elem` field of the node at address `a` (models a write through
the `RefMut<T>` returned by a mutable peek). -/
def setElem (h : Heap α) (a : Nat) (e : α) : Heap α :=
  h.map fun kn => (kn.1, if kn.1 = a then { kn.2 with elem := e } else kn.2)

/-- Deallocate the node at address `a` (the allocation is released once
`Rc::try_unwrap` succeeds and the shell is discarded). -/
def removeNode (h : Heap α) (a : Nat) : Heap α :=
  h.filter fun kn => decide (kn.1 ≠ a)

/-- `List<T>`: the two anchors `head, tail: Link<T>`, plus the modelled
memory (`heap`) and the allocator's fresh-address counter (`fresh`). -/
structure List (α : Type) where
  head : Option Nat
  tail : Option Nat
  heap : Heap α
  fresh : Nat
  deriving DecidableEq

/-- `Node::new`: a fresh node starts with `prev = None` and `next = None`;
the caller places it in the heap at a fresh address. -/
def Node.new (e : α) : Node α := ⟨e, none, none⟩

/-- `List::new()`: the empty list, both anchors `None`. -/
def List.new : List α := ⟨none, none, [], 0⟩

/-- `impl Default for List { fn default() { Self::new() } }`. -/
def List.default : List α := List.new

/-- `List::push_front`. -/
def push_front (s : List α) (e : α) : List α :=
  let a := s.fresh
  match s.head with
  | some old_head =>
    -- old_head.borrow_mut().prev = Some(new_head.clone());
    -- new_head.borrow_mut().next = Some(old_head);
    -- self.head = Some(new_head);
    { head := some a, tail := s.tail,
      heap := (a, { Node.new e with next := some old_head }) ::
        setPrev s.heap old_head (some a),
      fresh := a + 1 }
  | none =>
    -- self.tail = Some(new_head.clone()); self.head = Some(new_head);
    { head := some a, tail := some a,
      heap := (a, Node.new e) :: s.heap, fresh := a + 1 }

/-- `List::push_back`. -/
def push_back (s : List α) (e : α) : List α :=
  let a := s.fresh
  match s.tail with
  | some old_tail =>
    -- old_tail.borrow_mut().next = Some(new_tail.clone());
    -- new_tail.borrow_mut().prev = Some(old_tail);
    -- self.tail = Some(new_tail);
    { head := s.head, tail := some a,
      heap := (a, { Node.new e with prev := some old_tail }) ::
        setNext s.heap old_tail (some a),
      fresh := a + 1 }
  | none =>
    -- self.head = Some(new_tail.clone()); self.tail = Some(new_tail);
    { head := some a, tail := some a,
      heap := (a, Node.new e) :: s.heap, fresh := a + 1 }

/-- Handles to address `a` stored in node fields. -/
def refsFromNodes (h : Heap α) (a : Nat) : Nat :=
  (h.map fun kn =>
    (if kn.2.prev = some a then 1 else 0) +
    (if kn.2.next = some a then 1 else 0)).sum

/-- Handles to address `a` stored anywhere in the state: the `head` and
`tail` anchors plus every node's `prev`/`next`.  At the moment `pop_front`
runs `Rc::try_unwrap(old_head)`, the strong count of the popped allocation is
`refsTo s a + 1` (the `+1` is the local `old_head` handle being unwrapped);
the unwrap succeeds exactly when `refsTo s a = 0`. -/
def refsTo (s : List α) (a : Nat) : Nat :=
  (if s.head = some a then 1 else 0) + (if s.tail = some a then 1 else 0) +
    refsFromNodes s.heap a

/-- `List::pop_front`; `Except.error` models a panic
(`Rc::try_unwrap(..).ok().unwrap()` failing). -/
def pop_front (s : List α) : Except String (Option α × List α) :=
  match s.head with
  | none => .ok (none, s)
  | some old_head =>
    match hlookup old_head s.heap with
    | none => .error "dangling handle"
    | some old_node =>
      match old_node.next with
      | some new_head =>
        -- old_head.borrow_mut().next.take();
        -- new_head.borrow_mut().prev.take();
        -- self.head = Some(new_head);
        let h1 := setPrev (setNext s.heap old_head none) new_head none
        let s1 : List α :=
          { head := some new_head, tail := s.tail, heap := h1, fresh := s.fresh }
        if refsTo s1 old_head = 0 then
          .ok (some old_node.elem, { s1 with heap := removeNode s1.heap old_head })
        else .error "Rc try_unwrap failed"
      | none =>
        -- self.tail.take();
        let h1 := setNext s.heap old_head none
        let s1 : List α :=
          { head := none, tail := none, heap := h1, fresh := s.fresh }
        if refsTo s1 old_head = 0 then
          .ok (some old_node.elem, { s1 with heap := removeNode s1.heap old_head })
        else .error "Rc try_unwrap failed"

/-- `List::pop_back`. -/
def pop_back (s : List α) : Except String (Option α × List α) :=
  match s.tail with
  | none => .ok (none, s)
  | some old_tail =>
    match hlookup old_tail s.heap with
    | none => .error "dangling handle"
    | some old_node =>
      match old_node.prev with
      | some prev_tail =>
        -- old_tail.borrow_mut().prev.take();
        -- prev_tail.borrow_mut().next.take();
        -- self.tail = Some(prev_tail);
        let h1 := setNext (setPrev s.heap old_tail none) prev_tail none
        let s1 : List α :=
          { head := s.head, tail := some prev_tail, heap := h1, fresh := s.fresh }
        if refsTo s1 old_tail = 0 then
          .ok (some old_node.elem, { s1 with heap := removeNode s1.heap old_tail })
        else .error "Rc try_unwrap failed"
      | none =>
        -- self.head.take();
        let h1 := setPrev s.heap old_tail none
        let s1 : List α :=
          { head := none, tail := none, heap := h1, fresh := s.fresh }
        if refsTo s1 old_tail = 0 then
          .ok (some old_node.elem, { s1 with heap := removeNode s1.heap old_tail })
        else .error "Rc try_unwrap failed"

/-- `List::peek_front` (`&self`): returns a view of the head element; the
state component is the unchanged receiver. -/
def peek_front (s : List α) : Option α × List α :=
  (s.head.bind fun a => (hlookup a s.heap).map Node.elem, s)

/-- `List::peek_back` (`&self`). -/
def peek_back (s : List α) : Option α × List α :=
  (s.tail.bind fun a => (hlookup a s.heap).map Node.elem, s)

/-- `List::peek_front_mut` (`&mut self`): producing the `RefMut` view does
not itself mutate anything. -/
def peek_front_mut (s : List α) : Option α × List α :=
  (s.head.bind fun a => (hlookup a s.heap).map Node.elem, s)

/-- `List::peek_back_mut` (`&mut self`). -/
def peek_back_mut (s : List α) : Option α × List α :=
  (s.tail.bind fun a => (hlookup a s.heap).map Node.elem, s)

/-- A write through the `RefMut<T>` returned by `peek_front_mut`: it targets
`&mut node.elem` of the head node, so only that `elem` field can change. -/
def write_front (s : List α) (e : α) : List α :=
  match s.head with
  | none => s
  | some a => { s with heap := setElem s.heap a e }

/-- A write through the `RefMut<T>` returned by `peek_back_mut`. -/
def write_back (s : List α) (e : α) : List α :=
  match s.tail with
  | none => s
  | some a => { s with heap := setElem s.heap a e }

/-- `pub struct IntoIter<T>(List<T>)`. -/
structure IntoIter (α : Type) where
  list : List α
  deriving DecidableEq

/-- `List::into_iter`. -/
def into_iter (s : List α) : IntoIter α := ⟨s⟩

/-- `Iterator::next` for `IntoIter`: delegates to `pop_front`. -/
def IntoIter.next (i : IntoIter α) : Except String (Option α × IntoIter α) :=
  (pop_front i.list).map fun rs => (rs.1, ⟨rs.2⟩)

/-- `DoubleEndedIterator::next_back` for `IntoIter`: delegates to
`pop_back`. -/
def IntoIter.next_back (i : IntoIter α) : Except String (Option α × IntoIter α) :=
  (pop_back i.list).map fun rs => (rs.1, ⟨rs.2⟩)

/-- `impl Drop for List`: `while self.pop_front().is_some() {}`, run with
explicit fuel; returns the number of `Some` pops performed before the loop
saw `None`. -/
def drop_loop : Nat → List α → Except String (Nat × List α)
  | 0, _ => .error "out of fuel"
  | fuel + 1, s =>
    match pop_front s with
    | .error msg => .error msg
    | .ok (none, s1) => .ok (0, s1)
    | .ok (some _, s1) =>
      match drop_loop fuel s1 with
      | .error msg => .error msg
      | .ok (k, s2) => .ok (k + 1, s2)

/-- Drain the list through repeated `pop_front`, collecting the elements in
order, until `pop_front` returns `None`. -/
def drain_front : Nat → List α → Except String (Vals α × List α)
  | 0, _ => .error "out of fuel"
  | fuel + 1, s =>
    match pop_front s with
    | .error msg => .error msg
    | .ok (none, s1) => .ok ([], s1)
    | .ok (some e, s1) =>
      match drain_front fuel s1 with
      | .error msg => .error msg
      | .ok (l, s2) => .ok (e :: l, s2)

/-- Drain the list through repeated `pop_back`. -/
def drain_back : Nat → List α → Except String (Vals α × List α)
  | 0, _ => .error "out of fuel"
  | fuel + 1, s =>
    match pop_back s with
    | .error msg => .error msg
    | .ok (none, s1) => .ok ([], s1)
    | .ok (some e, s1) =>
      match drain_back fuel s1 with
      | .error msg => .error msg
      | .ok (l, s2) => .ok (e :: l, s2)

/-- Run one public operation. -/
def execOp (s : List α) : Op α → Except String (List α)
  | .pushF e => .ok (push_front s e)
  | .pushB e => .ok (push_back s e)
  | .popF => (pop_front s).map Prod.snd
  | .popB => (pop_back s).map Prod.snd

/-- Run a sequence of public operations from a given state. -/
def execOps : List α → Ops α → Except String (List α)
  | s, [] => .ok s
  | s, op :: rest =>
    match execOp s op with
    | .error msg => .error msg
    | .ok s1 => execOps s1 rest

/-- Whether an operation is a push. -/
def Op.isPush : Op α → Bool
  | .pushF _ => true
  | .pushB _ => true
  | .popF => false
  | .popB => false

/-- The sequence of values a push-only operation sequence builds, in
front-to-back order. -/
def absList : Vals α → Ops α → Vals α
  | l, [] => l
  | l, .pushF e :: rest => absList (e :: l) rest
  | l, .pushB e :: rest => absList (l ++ [e]) rest
  | l, .popF :: rest => absList l rest
  | l, .popB :: rest => absList l rest

/-- The address of the first node of `c`, or `q` if `c` is empty.  (Also: the
value the `next` field of the node just before `c` must hold.) -/
def nextAddr (c : Chain α) (q : Option Nat) : Option Nat :=
  match c with
  | [] => q
  | (b, _) :: _ => some b

/-- The address of the last node of `c`, or `p` if `c` is empty. -/
def lastAddr (p : Option Nat) (c : Chain α) : Option Nat :=
  match c.getLast? with
  | none => p
  | some be => some be.1

/-- The heap fragment a well-formed chain `c` occupies, given the address
`p` of the node before the chain and `q` of the node after it: node `aᵢ`
holds element `eᵢ`, `prev` pointing at `aᵢ₋₁` (or `p`), `next` at `aᵢ₊₁`
(or `q`). -/
def chainEntries : Option Nat → Chain α → Option Nat → Heap α
  | _, [], _ => []
  | p, (a, e) :: rest, q => (a, ⟨e, p, nextAddr rest q⟩) :: chainEntries (some a) rest q

/-- The addresses of a chain. -/
def keys (c : Chain α) : Vals Nat := c.map Prod.fst

/-- Representation invariant: state `s` is the well-formed doubly-linked
list whose nodes, front to back, are the chain `c`. -/
structure Inv (s : List α) (c : Chain α) : Prop where
  perm : s.heap.Perm (chainEntries none c none)
  nodup : (keys c).Nodup
  head_eq : s.head = nextAddr c none
  tail_eq : s.tail = lastAddr none c
  fresh_big : ∀ a ∈ keys c, a < s.fresh

/-- One step of forward traversal: follow the `next` field. -/
def stepNext (h : Heap α) (x : Option Nat) : Option Nat :=
  x.bind fun a => (hlookup a h).bind Node.next

/-- One step of backward traversal: follow the `prev` field. -/
def stepPrev (h : Heap α) (x : Option Nat) : Option Nat :=
  x.bind fun a => (hlookup a h).bind Node.prev

/-- `k` steps of forward traversal. -/
def walkNext (h : Heap α) (k : Nat) (x : Option Nat) : Option Nat :=
  (stepNext h)^[k] x

/-- `k` steps of backward traversal. -/
def walkPrev (h : Heap α) (k : Nat) (x : Option Nat) : Option Nat :=
  (stepPrev h)^[k] x

/-- The link structure of a state: both anchors and every node's
`prev`/`next` fields, with the elements erased. -/
def linkStruct (s : List α) : Option Nat × Option Nat × Heap Unit :=
  (s.head, s.tail, s.heap.map fun kn => (kn.1, ⟨(), kn.2.prev, kn.2.next⟩))

/-- `Except.isOk`. -/
def isOk : Except String β → Bool
  | .ok _ => true
  | .error _ => false

/-! ### Heap primitives -/

theorem hlookup_eq_none {h : Heap α} {a : Nat} (ha : a ∉ h.map Prod.fst) :
    hlookup a h = none := by
  induction h with
  | nil => rfl
  | cons kn rest ih =>
    obtain ⟨k, n⟩ := kn
    simp only [List.map_cons, List.mem_cons, not_or] at ha
    simp [hlookup, Ne.symm ha.1, ih ha.2]

theorem mem_of_hlookup {h : Heap α} {a : Nat} {n : Node α}
    (hl : hlookup a h = some n) : a ∈ h.map Prod.fst := by
  by_contra hmem
  rw [hlookup_eq_none hmem] at hl
  exact Option.noConfusion hl

theorem setPrev_cons (k : Nat) (n : Node α) (rest : Heap α) (a : Nat) (p : Option Nat) :
    setPrev ((k, n) :: rest) a p =
      (k, if k = a then { n with prev := p } else n) :: setPrev rest a p := rfl

theorem setNext_cons (k : Nat) (n : Node α) (rest : Heap α) (a : Nat) (p : Option Nat) :
    setNext ((k, n) :: rest) a p =
      (k, if k = a then { n with next := p } else n) :: setNext rest a p := rfl

theorem setElem_cons (k : Nat) (n : Node α) (rest : Heap α) (a : Nat) (e : α) :
    setElem ((k, n) :: rest) a e =
      (k, if k = a then { n with elem := e } else n) :: setElem rest a e := rfl

theorem hlookup_setPrev_ne {h : Heap α} {a b : Nat} (hne : a ≠ b) (p : Option Nat) :
    hlookup b (setPrev h a p) = hlookup b h := by
  induction h with
  | nil => rfl
  | cons kn rest ih =>
    obtain ⟨k, n⟩ := kn
    rw [setPrev_cons]
    by_cases hkb : k = b
    · subst hkb
      rw [if_neg (Ne.symm hne)]
      simp [hlookup]
    · simp [hlookup, hkb, ih]

theorem hlookup_setPrev_self (h : Heap α) (a : Nat) (p : Option Nat) :
    hlookup a (setPrev h a p) = (hlookup a h).map fun n => { n with prev := p } := by
  induction h with
  | nil => rfl
  | cons kn rest ih =>
    obtain ⟨k, n⟩ := kn
    rw [setPrev_cons]
    by_cases hk : k = a
    · subst hk
      simp [hlookup]
    · simp [hlookup, hk, ih]

theorem hlookup_setNext_ne {h : Heap α} {a b : Nat} (hne : a ≠ b) (p : Option Nat) :
    hlookup b (setNext h a p) = hlookup b h := by
  induction h with
  | nil => rfl
  | cons kn rest ih =>
    obtain ⟨k, n⟩ := kn
    rw [setNext_cons]
    by_cases hkb : k = b
    · subst hkb
      rw [if_neg (Ne.symm hne)]
      simp [hlookup]
    · simp [hlookup, hkb, ih]

theorem hlookup_setNext_self (h : Heap α) (a : Nat) (p : Option Nat) :
    hlookup a (setNext h a p) = (hlookup a h).map fun n => { n with next := p } := by
  induction h with
  | nil => rfl
  | cons kn rest ih =>
    obtain ⟨k, n⟩ := kn
    rw [setNext_cons]
    by_cases hk : k = a
    · subst hk
      simp [hlookup]
    · simp [hlookup, hk, ih]

theorem setPrev_not_mem {h : Heap α} {a : Nat} (ha : a ∉ h.map Prod.fst)
    (p : Option Nat) : setPrev h a p = h := by
  induction h with
  | nil => rfl
  | cons kn rest ih =>
    obtain ⟨k, n⟩ := kn
    simp only [List.map_cons, List.mem_cons, not_or] at ha
    simp [setPrev, Ne.symm ha.1]
    exact ih ha.2

theorem setNext_not_mem {h : Heap α} {a : Nat} (ha : a ∉ h.map Prod.fst)
    (p : Option Nat) : setNext h a p = h := by
  induction h with
  | nil => rfl
  | cons kn rest ih =>
    obtain ⟨k, n⟩ := kn
    simp only [List.map_cons, List.mem_cons, not_or] at ha
    simp [setNext, Ne.symm ha.1]
    exact ih ha.2

theorem removeNode_not_mem {h : Heap α} {a : Nat} (ha : a ∉ h.map Prod.fst) :
    removeNode h a = h := by
  induction h with
  | nil => rfl
  | cons kn rest ih =>
    obtain ⟨k, n⟩ := kn
    simp only [List.map_cons, List.mem_cons, not_or] at ha
    simp [removeNode, Ne.symm ha.1] at *
    exact ih ha.2

theorem refsFromNodes_perm {h h' : Heap α} (hp : h.Perm h') (a : Nat) :
    refsFromNodes h a = refsFromNodes h' a :=
  List.Perm.sum_eq (hp.map _)

theorem refsFromNodes_append (h1 h2 : Heap α) (a : Nat) :
    refsFromNodes (h1 ++ h2) a = refsFromNodes h1 a + refsFromNodes h2 a := by
  simp [refsFromNodes]

theorem hlookup_perm {h h' : Heap α} (hp : h.Perm h') :
    (h.map Prod.fst).Nodup → ∀ k, hlookup k h = hlookup k h' := by
  induction hp with
  | nil => intro _ k; rfl
  | cons x hrest ih =>
    intro hnd k
    obtain ⟨kx, nx⟩ := x
    simp only [List.map_cons, List.nodup_cons] at hnd
    by_cases hk : kx = k
    · simp [hlookup, hk]
    · simp [hlookup, hk, ih hnd.2 k]
  | swap x y l =>
    intro hnd k
    obtain ⟨kx, nx⟩ := x
    obtain ⟨ky, ny⟩ := y
    simp only [List.map_cons, List.nodup_cons, List.mem_cons, not_or] at hnd
    by_cases hky : ky = k
    · subst hky
      simp [hlookup, Ne.symm hnd.1.1]
    · by_cases hkx : kx = k <;> simp [hlookup, hky, hkx]
  | trans h12 h23 ih1 ih2 =>
    intro hnd k
    rw [ih1 hnd k, ih2 (((h12.map Prod.fst).nodup_iff).mp hnd) k]

/-! ### Chain lemmas -/

theorem keys_cons (a : Nat) (e : α) (c : Chain α) : keys ((a, e) :: c) = a :: keys c := rfl

theorem keys_append (c d : Chain α) : keys (c ++ d) = keys c ++ keys d := by
  simp [keys]

theorem mem_of_getLast {l : Chain α} {x : Nat × α} (hl : l.getLast? = some x) : x ∈ l := by
  induction l with
  | nil => exact absurd hl (by simp)
  | cons y rest ih =>
    cases rest with
    | nil =>
      simp [List.getLast?] at hl
      simp [hl]
    | cons z rest' =>
      rw [List.getLast?_cons_cons] at hl
      exact List.mem_cons_of_mem y (ih hl)

theorem keys_chainEntries (p : Option Nat) (c : Chain α) (q : Option Nat) :
    (chainEntries p c q).map Prod.fst = keys c := by
  induction c generalizing p with
  | nil => rfl
  | cons ae rest ih =>
    obtain ⟨a, e⟩ := ae
    show a :: (chainEntries (some a) rest q).map Prod.fst = a :: keys rest
    rw [ih]

theorem hlookup_chainEntries_none {p q : Option Nat} {c : Chain α} {a : Nat}
    (ha : a ∉ keys c) : hlookup a (chainEntries p c q) = none :=
  hlookup_eq_none (by rw [keys_chainEntries]; exact ha)

theorem lastAddr_cons (p : Option Nat) (a : Nat) (e : α) (c : Chain α) :
    lastAddr p ((a, e) :: c) = lastAddr (some a) c := by
  cases c with
  | nil => rfl
  | cons be rest =>
    simp only [lastAddr, List.getLast?_cons_cons]
    cases hgl : (be :: rest).getLast? with
    | none => exact absurd (List.getLast?_eq_none_iff.mp hgl) (by simp)
    | some x => rfl

theorem lastAddr_spec (p : Option Nat) (c : Chain α) :
    (c = [] ∧ lastAddr p c = p) ∨ ∃ x, lastAddr p c = some x ∧ x ∈ keys c := by
  induction c generalizing p with
  | nil => exact Or.inl ⟨rfl, rfl⟩
  | cons ae rest ih =>
    obtain ⟨a, e⟩ := ae
    rw [lastAddr_cons]
    rcases ih (some a) with ⟨hnil, heq⟩ | ⟨x, hx, hmem⟩
    · exact Or.inr ⟨a, heq, by rw [keys_cons]; exact List.mem_cons_self a _⟩
    · exact Or.inr ⟨x, hx, by rw [keys_cons]; exact List.mem_cons_of_mem a hmem⟩

theorem nextAddr_append (c d : Chain α) (q : Option Nat) :
    nextAddr (c ++ d) q = nextAddr c (nextAddr d q) := by
  cases c with
  | nil => rfl
  | cons ae rest => obtain ⟨a, e⟩ := ae; rfl

theorem chainEntries_append (p q : Option Nat) (c d : Chain α) :
    chainEntries p (c ++ d) q =
      chainEntries p c (nextAddr d q) ++ chainEntries (lastAddr p c) d q := by
  induction c generalizing p with
  | nil => rfl
  | cons ae rest ih =>
    obtain ⟨a, e⟩ := ae
    rw [lastAddr_cons]
    show (a, ⟨e, p, nextAddr (rest ++ d) q⟩) :: chainEntries (some a) (rest ++ d) q =
      (a, ⟨e, p, nextAddr rest (nextAddr d q)⟩) ::
        (chainEntries (some a) rest (nextAddr d q) ++
          chainEntries (lastAddr (some a) rest) d q)
    rw [ih, nextAddr_append]

theorem setNext_chainEntries_last {c : Chain α} (hnd : (keys c).Nodup)
    {aL : Nat} {eL : α} (hlast : c.getLast? = some (aL, eL))
    (p q v : Option Nat) :
    setNext (chainEntries p c q) aL v = chainEntries p c v := by
  induction c generalizing p with
  | nil => exact absurd hlast (by simp)
  | cons ae rest ih =>
    obtain ⟨a, e⟩ := ae
    cases rest with
    | nil =>
      simp only [List.getLast?_singleton, Option.some.injEq, Prod.mk.injEq] at hlast
      obtain ⟨h1, _⟩ := hlast
      subst h1
      show setNext [(a, ⟨e, p, q⟩)] a v = [(a, ⟨e, p, v⟩)]
      rw [setNext_cons, if_pos rfl]
      rfl
    | cons be rest' =>
      rw [List.getLast?_cons_cons] at hlast
      rw [keys_cons, List.nodup_cons] at hnd
      have haL : aL ∈ keys (be :: rest') := by
        have := mem_of_getLast hlast
        exact List.mem_map_of_mem Prod.fst this
      have hne : a ≠ aL := fun hh => hnd.1 (hh ▸ haL)
      obtain ⟨b, e2⟩ := be
      show setNext ((a, ⟨e, p, some b⟩) :: chainEntries (some a) ((b, e2) :: rest') q) aL v =
        (a, ⟨e, p, some b⟩) :: chainEntries (some a) ((b, e2) :: rest') v
      rw [setNext_cons, if_neg hne, ih hnd.2 hlast]

theorem setPrev_chainEntries_first {a : Nat} {e : α} {c : Chain α}
    (hnd : (keys ((a, e) :: c)).Nodup) (p q v : Option Nat) :
    setPrev (chainEntries p ((a, e) :: c) q) a v = chainEntries v ((a, e) :: c) q := by
  rw [keys_cons, List.nodup_cons] at hnd
  show setPrev ((a, ⟨e, p, nextAddr c q⟩) :: chainEntries (some a) c q) a v =
    (a, ⟨e, v, nextAddr c q⟩) :: chainEntries (some a) c q
  rw [setPrev_cons, if_pos rfl]
  rw [setPrev_not_mem (by rw [keys_chainEntries]; exact hnd.1) v]

theorem setPrev_append (h1 h2 : Heap α) (a : Nat) (p : Option Nat) :
    setPrev (h1 ++ h2) a p = setPrev h1 a p ++ setPrev h2 a p :=
  List.map_append _ h1 h2

theorem setNext_append (h1 h2 : Heap α) (a : Nat) (p : Option Nat) :
    setNext (h1 ++ h2) a p = setNext h1 a p ++ setNext h2 a p :=
  List.map_append _ h1 h2

theorem removeNode_append (h1 h2 : Heap α) (a : Nat) :
    removeNode (h1 ++ h2) a = removeNode h1 a ++ removeNode h2 a :=
  List.filter_append h1 h2

theorem removeNode_cons_self (k : Nat) (n : Node α) (rest : Heap α) :
    removeNode ((k, n) :: rest) k = removeNode rest k := by
  simp [removeNode]

theorem removeNode_cons_ne {k a : Nat} (hne : k ≠ a) (n : Node α) (rest : Heap α) :
    removeNode ((k, n) :: rest) a = (k, n) :: removeNode rest a := by
  simp [removeNode, hne]

theorem hlookup_append_right {h1 h2 : Heap α} {a : Nat} (ha : a ∉ h1.map Prod.fst) :
    hlookup a (h1 ++ h2) = hlookup a h2 := by
  induction h1 with
  | nil => rfl
  | cons kn rest ih =>
    obtain ⟨k, n⟩ := kn
    simp only [List.map_cons, List.mem_cons, not_or] at ha
    show (if k = a then some n else hlookup a (rest ++ h2)) = hlookup a h2
    rw [if_neg (Ne.symm ha.1), ih ha.2]

/-! ### Reference counting over chain entries -/

theorem refsFromNodes_cons (k : Nat) (n : Node α) (h : Heap α) (a : Nat) :
    refsFromNodes ((k, n) :: h) a =
      ((if n.prev = some a then 1 else 0) + (if n.next = some a then 1 else 0)) +
        refsFromNodes h a := by
  simp [refsFromNodes]

theorem refsFromNodes_chainEntries_zero {x : Nat} {c : Chain α} {p q : Option Nat}
    (hx : x ∉ keys c) (hp : p ≠ some x) (hq : q ≠ some x) :
    refsFromNodes (chainEntries p c q) x = 0 := by
  induction c generalizing p with
  | nil => rfl
  | cons ae rest ih =>
    obtain ⟨a, e⟩ := ae
    rw [keys_cons, List.mem_cons, not_or] at hx
    show refsFromNodes ((a, ⟨e, p, nextAddr rest q⟩) :: chainEntries (some a) rest q) x = 0
    rw [refsFromNodes_cons]
    have hnext : nextAddr rest q ≠ some x := by
      cases rest with
      | nil => exact hq
      | cons be rest' =>
        obtain ⟨b, e2⟩ := be
        intro hh
        injection hh with hh
        exact hx.2 (by rw [keys_cons]; exact hh ▸ List.mem_cons_self b _)
    rw [if_neg hp, if_neg hnext]
    have := ih hx.2 (fun hh => hx.1 (Option.some.inj hh).symm)
    omega

theorem chainEntries_next_not {x : Nat} {c : Chain α} {p q : Option Nat}
    (hx : x ∉ keys c) (hq : q ≠ some x) {k : Nat} {n : Node α}
    (hl : hlookup k (chainEntries p c q) = some n) : n.next ≠ some x := by
  induction c generalizing p with
  | nil => exact absurd hl (by simp [chainEntries, hlookup])
  | cons ae rest ih =>
    obtain ⟨a, e⟩ := ae
    rw [keys_cons, List.mem_cons, not_or] at hx
    have hnext : nextAddr rest q ≠ some x := by
      cases rest with
      | nil => exact hq
      | cons be rest' =>
        obtain ⟨b, e2⟩ := be
        intro hh
        injection hh with hh
        exact hx.2 (by rw [keys_cons]; exact hh ▸ List.mem_cons_self b _)
    by_cases hk : a = k
    · subst hk
      have : hlookup a (chainEntries p ((a, e) :: rest) q) =
          some ⟨e, p, nextAddr rest q⟩ := by
        show (if a = a then _ else _) = _
        rw [if_pos rfl]
      rw [this] at hl
      injection hl with hl
      rw [← hl]
      exact hnext
    · have : hlookup k (chainEntries p ((a, e) :: rest) q) =
          hlookup k (chainEntries (some a) rest q) := by
        show (if a = k then _ else _) = _
        rw [if_neg hk]
      rw [this] at hl
      exact ih hx.2 hl

theorem chainEntries_prev_not {x : Nat} {c : Chain α} {p q : Option Nat}
    (hx : x ∉ keys c) (hp : p ≠ some x) {k : Nat} {n : Node α}
    (hl : hlookup k (chainEntries p c q) = some n) : n.prev ≠ some x := by
  induction c generalizing p with
  | nil => exact absurd hl (by simp [chainEntries, hlookup])
  | cons ae rest ih =>
    obtain ⟨a, e⟩ := ae
    rw [keys_cons, List.mem_cons, not_or] at hx
    by_cases hk : a = k
    · subst hk
      have : hlookup a (chainEntries p ((a, e) :: rest) q) =
          some ⟨e, p, nextAddr rest q⟩ := by
        show (if a = a then _ else _) = _
        rw [if_pos rfl]
      rw [this] at hl
      injection hl with hl
      rw [← hl]
      exact hp
    · have : hlookup k (chainEntries p ((a, e) :: rest) q) =
          hlookup k (chainEntries (some a) rest q) := by
        show (if a = k then _ else _) = _
        rw [if_neg hk]
      rw [this] at hl
      exact ih hx.2 (fun hh => hx.1 (Option.some.inj hh).symm) hl

/-! ### Invariant basics -/

theorem heap_keys_nodup {s : List α} {c : Chain α} (hI : Inv s c) :
    (s.heap.map Prod.fst).Nodup :=
  ((hI.perm.map Prod.fst).nodup_iff).mpr (by rw [keys_chainEntries]; exact hI.nodup)

theorem Inv.lookup {s : List α} {c : Chain α} (hI : Inv s c) (k : Nat) :
    hlookup k s.heap = hlookup k (chainEntries none c none) :=
  hlookup_perm hI.perm (heap_keys_nodup hI) k

theorem Inv_new : Inv (List.new : List α) [] where
  perm := List.Perm.refl _
  nodup := List.nodup_nil
  head_eq := rfl
  tail_eq := rfl
  fresh_big := by intro a ha; exact absurd ha (List.not_mem_nil a)

/-! ### Pushes preserve the invariant -/

theorem push_front_inv {s : List α} {c : Chain α} (hI : Inv s c) (e : α) :
    Inv (push_front s e) ((s.fresh, e) :: c) := by
  have hfr : s.fresh ∉ keys c := fun hmem => lt_irrefl _ (hI.fresh_big _ hmem)
  cases c with
  | nil =>
    have hh : s.head = none := hI.head_eq
    have hheap : s.heap = [] := hI.perm.eq_nil
    have hpf : push_front s e =
        { head := some s.fresh, tail := some s.fresh,
          heap := [(s.fresh, ⟨e, none, none⟩)], fresh := s.fresh + 1 } := by
      rw [push_front, hh, hheap]
      rfl
    rw [hpf]
    exact
      { perm := List.Perm.refl _
        nodup := by simp [keys]
        head_eq := rfl
        tail_eq := rfl
        fresh_big := by
          intro a ha
          show a < s.fresh + 1
          rw [keys_cons] at ha
          rcases List.mem_cons.mp ha with h | h
          · omega
          · exact absurd h (List.not_mem_nil a) }
  | cons ae c0 =>
    obtain ⟨a0, e0⟩ := ae
    have hh : s.head = some a0 := hI.head_eq
    have hpf : push_front s e =
        { head := some s.fresh, tail := s.tail,
          heap := (s.fresh, ⟨e, none, some a0⟩) :: setPrev s.heap a0 (some s.fresh),
          fresh := s.fresh + 1 } := by
      rw [push_front, hh]
      rfl
    rw [hpf]
    exact
      { perm := by
          show ((s.fresh, ⟨e, none, some a0⟩) :: setPrev s.heap a0 (some s.fresh)).Perm
            ((s.fresh, ⟨e, none, some a0⟩) :: chainEntries (some s.fresh) ((a0, e0) :: c0) none)
          refine List.Perm.cons _ ?_
          have h1 : (setPrev s.heap a0 (some s.fresh)).Perm
              (setPrev (chainEntries none ((a0, e0) :: c0) none) a0 (some s.fresh)) :=
            hI.perm.map _
          rw [setPrev_chainEntries_first hI.nodup] at h1
          exact h1
        nodup := by
          rw [keys_cons, List.nodup_cons]
          exact ⟨hfr, hI.nodup⟩
        head_eq := rfl
        tail_eq := by
          rw [lastAddr_cons, lastAddr_cons]
          have := hI.tail_eq
          rw [lastAddr_cons] at this
          exact this
        fresh_big := by
          intro a ha
          show a < s.fresh + 1
          rw [keys_cons, List.mem_cons] at ha
          rcases ha with h | h
          · omega
          · have := hI.fresh_big a h
            omega }

theorem push_back_inv {s : List α} {c : Chain α} (hI : Inv s c) (e : α) :
    Inv (push_back s e) (c ++ [(s.fresh, e)]) := by
  have hfr : s.fresh ∉ keys c := fun hmem => lt_irrefl _ (hI.fresh_big _ hmem)
  cases hc : c with
  | nil =>
    have ht : s.tail = none := by rw [hI.tail_eq, hc]; rfl
    have hheap : s.heap = [] := by
      have := hI.perm
      rw [hc] at this
      exact this.eq_nil
    have hpb : push_back s e =
        { head := some s.fresh, tail := some s.fresh,
          heap := [(s.fresh, ⟨e, none, none⟩)], fresh := s.fresh + 1 } := by
      rw [push_back, ht, hheap]
      rfl
    rw [hpb]
    exact
      { perm := List.Perm.refl _
        nodup := by simp [keys]
        head_eq := rfl
        tail_eq := rfl
        fresh_big := by
          intro a ha
          show a < s.fresh + 1
          have ha2 : a ∈ keys [(s.fresh, e)] := ha
          rw [keys_cons] at ha2
          rcases List.mem_cons.mp ha2 with h | h
          · omega
          · exact absurd h (List.not_mem_nil a) }
  | cons ae c0 =>
    rw [← hc]
    have hcne : c ≠ [] := by rw [hc]; exact List.cons_ne_nil _ _
    obtain ⟨xL, hgl⟩ : ∃ xL, c.getLast? = some xL := by
      cases hgl2 : c.getLast? with
      | none => exact absurd (List.getLast?_eq_none_iff.mp hgl2) hcne
      | some x => exact ⟨x, rfl⟩
    obtain ⟨aL, eL⟩ := xL
    have ht : s.tail = some aL := by
      rw [hI.tail_eq]
      show (match c.getLast? with | none => none | some be => some be.1) = some aL
      rw [hgl]
    have hlast_mem : aL ∈ keys c := List.mem_map_of_mem Prod.fst (mem_of_getLast hgl)
    have hne : s.fresh ≠ aL := fun hh => hfr (hh ▸ hlast_mem)
    have hpb : push_back s e =
        { head := s.head, tail := some s.fresh,
          heap := (s.fresh, ⟨e, some aL, none⟩) :: setNext s.heap aL (some s.fresh),
          fresh := s.fresh + 1 } := by
      rw [push_back, ht]
      rfl
    rw [hpb]
    have hCE : chainEntries none (c ++ [(s.fresh, e)]) none =
        chainEntries none c (some s.fresh) ++ [(s.fresh, ⟨e, some aL, none⟩)] := by
      rw [chainEntries_append]
      have h2 : lastAddr none c = some aL := by
        show (match c.getLast? with | none => none | some be => some be.1) = some aL
        rw [hgl]
      rw [h2]
      rfl
    exact
      { perm := by
          rw [hCE]
          have h1 : (setNext s.heap aL (some s.fresh)).Perm
              (setNext (chainEntries none c none) aL (some s.fresh)) :=
            hI.perm.map _
          rw [setNext_chainEntries_last hI.nodup hgl] at h1
          refine List.Perm.trans (List.Perm.cons _ h1) ?_
          exact (List.perm_append_singleton _ _).symm
        nodup := by
          rw [keys_append]
          refine ((List.perm_append_singleton _ _).nodup_iff).mpr ?_
          show (s.fresh :: keys c).Nodup
          rw [List.nodup_cons]
          exact ⟨hfr, hI.nodup⟩
        head_eq := by
          rw [nextAddr_append]
          have := hI.head_eq
          rw [hc] at this ⊢
          obtain ⟨a1, e1⟩ := ae
          exact this
        tail_eq := by
          show some s.fresh = lastAddr none (c ++ [(s.fresh, e)])
          show some s.fresh =
            (match (c ++ [(s.fresh, e)]).getLast? with
              | none => none | some be => some be.1)
          rw [List.getLast?_concat]
        fresh_big := by
          intro a ha
          show a < s.fresh + 1
          rw [keys_append, List.mem_append] at ha
          rcases ha with h | h
          · have := hI.fresh_big a h
            omega
          · rw [keys_cons, List.mem_cons] at h
            rcases h with h | h
            · omega
            · exact absurd h (List.not_mem_nil a) }

/-! ### Pops: the sole-owner check succeeds and the invariant is preserved -/

theorem pop_front_nil {s : List α} (hI : Inv s []) : pop_front s = .ok (none, s) := by
  have hh : s.head = none := hI.head_eq
  rw [pop_front, hh]

theorem pop_front_cons {s : List α} {a0 : Nat} {e0 : α} {c0 : Chain α}
    (hI : Inv s ((a0, e0) :: c0)) :
    ∃ s', pop_front s = .ok (some e0, s') ∧ Inv s' c0 := by
  have hnd0 : a0 ∉ keys c0 ∧ (keys c0).Nodup := by
    have := hI.nodup
    rw [keys_cons, List.nodup_cons] at this
    exact this
  have hhead : s.head = some a0 := hI.head_eq
  have hlook : hlookup a0 s.heap = some ⟨e0, none, nextAddr c0 none⟩ := by
    rw [hI.lookup]
    show (if a0 = a0 then some (⟨e0, none, nextAddr c0 none⟩ : Node α) else
      hlookup a0 (chainEntries (some a0) c0 none)) = _
    rw [if_pos rfl]
  cases c0 with
  | nil =>
    have hCE : setNext (chainEntries none [(a0, e0)] none) a0 none =
        [(a0, ⟨e0, none, none⟩)] := by
      show setNext [(a0, ⟨e0, none, none⟩)] a0 none = [(a0, ⟨e0, none, none⟩)]
      rw [setNext_cons, if_pos rfl]
      rfl
    have hperm1 : (setNext s.heap a0 none).Perm [(a0, ⟨e0, none, none⟩)] := by
      have h1 : (setNext s.heap a0 none).Perm
          (setNext (chainEntries none [(a0, e0)] none) a0 none) := hI.perm.map _
      rw [hCE] at h1
      exact h1
    have hrefs : refsFromNodes (setNext s.heap a0 none) a0 = 0 := by
      rw [refsFromNodes_perm hperm1]
      simp [refsFromNodes]
    have hcond : refsTo (⟨none, none, setNext s.heap a0 none, s.fresh⟩ : List α) a0 = 0 := by
      simp [refsTo, hrefs]
    have hremove : (removeNode (setNext s.heap a0 none) a0).Perm [] := by
      have h1 := hperm1.filter (fun kn => decide (kn.1 ≠ a0))
      have h2 : List.filter (fun kn => decide (kn.1 ≠ a0))
          [((a0 : Nat), (⟨e0, none, none⟩ : Node α))] = [] := by
        show removeNode _ a0 = _
        rw [removeNode_cons_self]
        rfl
      rw [h2] at h1
      exact h1
    refine ⟨⟨none, none, removeNode (setNext s.heap a0 none) a0, s.fresh⟩, ?_, ?_⟩
    · simp only [pop_front, hhead, hlook, nextAddr]
      rw [if_pos hcond]
    · exact
        { perm := hremove
          nodup := List.nodup_nil
          head_eq := rfl
          tail_eq := rfl
          fresh_big := by intro a ha; exact absurd ha (List.not_mem_nil a) }
  | cons a1e1 c1 =>
    obtain ⟨a1, e1⟩ := a1e1
    have hne01 : a0 ≠ a1 := by
      intro hh
      exact hnd0.1 (by rw [keys_cons]; exact hh ▸ List.mem_cons_self a1 (keys c1))
    have hne10 : a1 ≠ a0 := Ne.symm hne01
    have hD : setPrev (setNext
        (chainEntries none ((a0, e0) :: (a1, e1) :: c1) none) a0 none) a1 none
        = (a0, ⟨e0, none, none⟩) :: chainEntries none ((a1, e1) :: c1) none := by
      show setPrev (setNext ((a0, ⟨e0, none, some a1⟩) ::
        chainEntries (some a0) ((a1, e1) :: c1) none) a0 none) a1 none = _
      rw [setNext_cons, if_pos rfl,
        setNext_not_mem (by rw [keys_chainEntries]; exact hnd0.1),
        setPrev_cons, if_neg hne01, setPrev_chainEntries_first hnd0.2]
    have hperm1 : (setPrev (setNext s.heap a0 none) a1 none).Perm
        ((a0, ⟨e0, none, none⟩) :: chainEntries none ((a1, e1) :: c1) none) := by
      have h1 : (setNext s.heap a0 none).Perm
          (setNext (chainEntries none ((a0, e0) :: (a1, e1) :: c1) none) a0 none) :=
        hI.perm.map _
      have h2 : (setPrev (setNext s.heap a0 none) a1 none).Perm
          (setPrev (setNext
            (chainEntries none ((a0, e0) :: (a1, e1) :: c1) none) a0 none) a1 none) :=
        h1.map _
      rw [hD] at h2
      exact h2
    have hrefs : refsFromNodes (setPrev (setNext s.heap a0 none) a1 none) a0 = 0 := by
      rw [refsFromNodes_perm hperm1, refsFromNodes_cons,
        refsFromNodes_chainEntries_zero hnd0.1 (by simp) (by simp)]
      simp
    have htail : s.tail ≠ some a0 := by
      rw [hI.tail_eq, lastAddr_cons, lastAddr_cons]
      rcases lastAddr_spec (some a1) c1 with ⟨hnil, heq⟩ | ⟨x, hx, hmem⟩
      · rw [heq]
        intro hh
        exact hne10 (Option.some.inj hh)
      · rw [hx]
        intro hh
        have hxa : x = a0 := Option.some.inj hh
        exact hnd0.1 (by rw [keys_cons]; exact List.mem_cons_of_mem _ (hxa ▸ hmem))
    have hcond : refsTo
        (⟨some a1, s.tail, setPrev (setNext s.heap a0 none) a1 none, s.fresh⟩ : List α)
        a0 = 0 := by
      simp [refsTo, hrefs, htail, hne10]
    have hremove : (removeNode (setPrev (setNext s.heap a0 none) a1 none) a0).Perm
        (chainEntries none ((a1, e1) :: c1) none) := by
      have h1 := hperm1.filter (fun kn => decide (kn.1 ≠ a0))
      have h2 : List.filter (fun kn => decide (kn.1 ≠ a0))
          ((a0, (⟨e0, none, none⟩ : Node α)) ::
            chainEntries none ((a1, e1) :: c1) none) =
          chainEntries none ((a1, e1) :: c1) none := by
        show removeNode _ a0 = _
        rw [removeNode_cons_self]
        exact removeNode_not_mem (by rw [keys_chainEntries]; exact hnd0.1)
      rw [h2] at h1
      exact h1
    refine ⟨⟨some a1, s.tail,
      removeNode (setPrev (setNext s.heap a0 none) a1 none) a0, s.fresh⟩, ?_, ?_⟩
    · simp only [pop_front, hhead, hlook, nextAddr]
      rw [if_pos hcond]
    · exact
        { perm := hremove
          nodup := hnd0.2
          head_eq := rfl
          tail_eq := by
            have := hI.tail_eq
            rw [lastAddr_cons, lastAddr_cons] at this
            rw [lastAddr_cons]
            exact this
          fresh_big := by
            intro a ha
            exact hI.fresh_big a (by rw [keys_cons]; exact List.mem_cons_of_mem _ ha) }

theorem pop_back_nil {s : List α} (hI : Inv s []) : pop_back s = .ok (none, s) := by
  have ht : s.tail = none := hI.tail_eq
  rw [pop_back, ht]

theorem pop_back_concat {s : List α} {aL : Nat} {eL : α} {c0 : Chain α}
    (hI : Inv s (c0 ++ [(aL, eL)])) :
    ∃ s', pop_back s = .ok (some eL, s') ∧ Inv s' c0 := by
  have hnds : aL ∉ keys c0 ∧ (keys c0).Nodup := by
    have h1 := hI.nodup
    rw [keys_append] at h1
    have h2 : (keys c0 ++ [aL]).Nodup := h1
    have h3 := ((List.perm_append_singleton aL (keys c0)).nodup_iff).mp h2
    rw [List.nodup_cons] at h3
    exact h3
  have htail : s.tail = some aL := by
    rw [hI.tail_eq]
    show (match (c0 ++ [(aL, eL)]).getLast? with
      | none => (none : Option Nat) | some be => some be.1) = some aL
    rw [List.getLast?_concat]
  have hCEa : chainEntries none (c0 ++ [(aL, eL)]) none =
      chainEntries none c0 (some aL) ++ [(aL, ⟨eL, lastAddr none c0, none⟩)] := by
    rw [chainEntries_append]
    rfl
  have hlook : hlookup aL s.heap = some ⟨eL, lastAddr none c0, none⟩ := by
    rw [hI.lookup, hCEa,
      hlookup_append_right (by rw [keys_chainEntries]; exact hnds.1)]
    show (if aL = aL then _ else _) = _
    rw [if_pos rfl]
  cases c0 with
  | nil =>
    have hlook2 : hlookup aL s.heap = some ⟨eL, none, none⟩ := hlook
    have hCE : setPrev (chainEntries none [(aL, eL)] none) aL none =
        [(aL, ⟨eL, none, none⟩)] := by
      show setPrev [(aL, ⟨eL, none, none⟩)] aL none = [(aL, ⟨eL, none, none⟩)]
      rw [setPrev_cons, if_pos rfl]
      rfl
    have hperm1 : (setPrev s.heap aL none).Perm [(aL, ⟨eL, none, none⟩)] := by
      have h1 : (setPrev s.heap aL none).Perm
          (setPrev (chainEntries none [(aL, eL)] none) aL none) := hI.perm.map _
      rw [hCE] at h1
      exact h1
    have hrefs : refsFromNodes (setPrev s.heap aL none) aL = 0 := by
      rw [refsFromNodes_perm hperm1]
      simp [refsFromNodes]
    have hcond : refsTo (⟨none, none, setPrev s.heap aL none, s.fresh⟩ : List α) aL = 0 := by
      simp [refsTo, hrefs]
    have hremove : (removeNode (setPrev s.heap aL none) aL).Perm [] := by
      have h1 := hperm1.filter (fun kn => decide (kn.1 ≠ aL))
      have h2 : List.filter (fun kn => decide (kn.1 ≠ aL))
          [((aL : Nat), (⟨eL, none, none⟩ : Node α))] = [] := by
        show removeNode _ aL = _
        rw [removeNode_cons_self]
        rfl
      rw [h2] at h1
      exact h1
    refine ⟨⟨none, none, removeNode (setPrev s.heap aL none) aL, s.fresh⟩, ?_, ?_⟩
    · simp only [pop_back, htail, hlook2]
      rw [if_pos hcond]
    · exact
        { perm := hremove
          nodup := List.nodup_nil
          head_eq := rfl
          tail_eq := rfl
          fresh_big := by intro a ha; exact absurd ha (List.not_mem_nil a) }
  | cons a1e1 c1 =>
    obtain ⟨a1, e1⟩ := a1e1
    obtain ⟨xP, hglP⟩ : ∃ xP, ((a1, e1) :: c1).getLast? = some xP := by
      cases hgl2 : ((a1, e1) :: c1).getLast? with
      | none =>
        exact absurd (List.getLast?_eq_none_iff.mp hgl2) (List.cons_ne_nil _ _)
      | some x => exact ⟨x, rfl⟩
    obtain ⟨aP, eP⟩ := xP
    have hlastP : lastAddr none ((a1, e1) :: c1) = some aP := by
      show (match ((a1, e1) :: c1).getLast? with
        | none => (none : Option Nat) | some be => some be.1) = some aP
      rw [hglP]
    have hmemP : aP ∈ keys ((a1, e1) :: c1) :=
      List.mem_map_of_mem Prod.fst (mem_of_getLast hglP)
    have hnePL : aP ≠ aL := fun hh => hnds.1 (hh ▸ hmemP)
    have hneLP : aL ≠ aP := Ne.symm hnePL
    have hne1L : a1 ≠ aL := by
      intro hh
      exact hnds.1 (by rw [keys_cons]; exact hh ▸ List.mem_cons_self a1 (keys c1))
    have hlook2 : hlookup aL s.heap = some ⟨eL, some aP, none⟩ := by
      rw [hlook, hlastP]
    have hD : setNext (setPrev
        (chainEntries none (((a1, e1) :: c1) ++ [(aL, eL)]) none) aL none) aP none
        = chainEntries none ((a1, e1) :: c1) none ++ [(aL, ⟨eL, none, none⟩)] := by
      rw [hCEa, hlastP, setPrev_append, setNext_append,
        setPrev_not_mem (by rw [keys_chainEntries]; exact hnds.1)]
      have hsing1 : setPrev [((aL : Nat), (⟨eL, some aP, none⟩ : Node α))] aL none =
          [(aL, ⟨eL, none, none⟩)] := by
        rw [setPrev_cons, if_pos rfl]
        rfl
      have hsing2 : setNext [((aL : Nat), (⟨eL, none, none⟩ : Node α))] aP none =
          [(aL, ⟨eL, none, none⟩)] := by
        rw [setNext_cons, if_neg hneLP]
        rfl
      rw [hsing1, hsing2, setNext_chainEntries_last hnds.2 hglP]
    have hperm1 : (setNext (setPrev s.heap aL none) aP none).Perm
        (chainEntries none ((a1, e1) :: c1) none ++ [(aL, ⟨eL, none, none⟩)]) := by
      have h1 : (setPrev s.heap aL none).Perm
          (setPrev (chainEntries none (((a1, e1) :: c1) ++ [(aL, eL)]) none) aL none) :=
        hI.perm.map _
      have h2 : (setNext (setPrev s.heap aL none) aP none).Perm
          (setNext (setPrev
            (chainEntries none (((a1, e1) :: c1) ++ [(aL, eL)]) none) aL none) aP none) :=
        h1.map _
      rw [hD] at h2
      exact h2
    have hrefs : refsFromNodes (setNext (setPrev s.heap aL none) aP none) aL = 0 := by
      rw [refsFromNodes_perm hperm1, refsFromNodes_append,
        refsFromNodes_chainEntries_zero hnds.1 (by simp) (by simp)]
      simp [refsFromNodes]
    have hhead : s.head = some a1 := hI.head_eq
    have hcond : refsTo
        (⟨s.head, some aP, setNext (setPrev s.heap aL none) aP none, s.fresh⟩ : List α)
        aL = 0 := by
      simp [refsTo, hrefs, hhead, hne1L, hnePL]
    have hremove : (removeNode (setNext (setPrev s.heap aL none) aP none) aL).Perm
        (chainEntries none ((a1, e1) :: c1) none) := by
      have h1 := hperm1.filter (fun kn => decide (kn.1 ≠ aL))
      have h2 : List.filter (fun kn => decide (kn.1 ≠ aL))
          (chainEntries none ((a1, e1) :: c1) none ++ [(aL, (⟨eL, none, none⟩ : Node α))]) =
          chainEntries none ((a1, e1) :: c1) none := by
        show removeNode _ aL = _
        rw [removeNode_append, removeNode_cons_self,
          removeNode_not_mem (by rw [keys_chainEntries]; exact hnds.1)]
        simp [removeNode]
      rw [h2] at h1
      exact h1
    refine ⟨⟨s.head, some aP,
      removeNode (setNext (setPrev s.heap aL none) aP none) aL, s.fresh⟩, ?_, ?_⟩
    · simp only [pop_back, htail, hlook2]
      rw [if_pos hcond]
    · exact
        { perm := hremove
          nodup := hnds.2
          head_eq := hI.head_eq
          tail_eq := hlastP.symm
          fresh_big := by
            intro a ha
            refine hI.fresh_big a ?_
            rw [keys_append]
            exact List.mem_append_left _ ha }

theorem pop_front_ok {s : List α} {c : Chain α} (hI : Inv s c) :
    ∃ r s', pop_front s = .ok (r, s') ∧ ∃ c', Inv s' c' := by
  cases c with
  | nil => exact ⟨none, s, pop_front_nil hI, [], hI⟩
  | cons ae c0 =>
    obtain ⟨a, e⟩ := ae
    obtain ⟨s', h1, h2⟩ := pop_front_cons hI
    exact ⟨some e, s', h1, c0, h2⟩

theorem pop_back_ok {s : List α} {c : Chain α} (hI : Inv s c) :
    ∃ r s', pop_back s = .ok (r, s') ∧ ∃ c', Inv s' c' := by
  rcases List.eq_nil_or_concat c with hc | ⟨c0, x, hc⟩
  · subst hc
    exact ⟨none, s, pop_back_nil hI, [], hI⟩
  · rw [List.concat_eq_append] at hc
    subst hc
    obtain ⟨aL, eL⟩ := x
    obtain ⟨s', h1, h2⟩ := pop_back_concat hI
    exact ⟨some eL, s', h1, c0, h2⟩

theorem execOp_ok {s : List α} {c : Chain α} (hI : Inv s c) (op : Op α) :
    ∃ s' c', execOp s op = .ok s' ∧ Inv s' c' := by
  cases op with
  | pushF e => exact ⟨_, _, rfl, push_front_inv hI e⟩
  | pushB e => exact ⟨_, _, rfl, push_back_inv hI e⟩
  | popF =>
    obtain ⟨r, s', h1, c', h2⟩ := pop_front_ok hI
    refine ⟨s', c', ?_, h2⟩
    show (pop_front s).map Prod.snd = Except.ok s'
    rw [h1]
    rfl
  | popB =>
    obtain ⟨r, s', h1, c', h2⟩ := pop_back_ok hI
    refine ⟨s', c', ?_, h2⟩
    show (pop_back s).map Prod.snd = Except.ok s'
    rw [h1]
    rfl

theorem execOps_ok (ops : Ops α) :
    ∀ {s : List α} {c : Chain α}, Inv s c →
      ∃ s' c', execOps s ops = .ok s' ∧ Inv s' c' := by
  induction ops with
  | nil =>
    intro s c hI
    exact ⟨s, c, rfl, hI⟩
  | cons op rest ih =>
    intro s c hI
    obtain ⟨s1, c1, h1, hI1⟩ := execOp_ok hI op
    obtain ⟨s2, c2, h2, hI2⟩ := ih hI1
    refine ⟨s2, c2, ?_, hI2⟩
    show (match execOp s op with
      | Except.error msg => (Except.error msg : Except String (List α))
      | Except.ok s1 => execOps s1 rest) = Except.ok s2
    rw [h1]
    exact h2

/-- C1: every state reachable from the empty list by
push_front/push_back/pop_front/pop_back operations is one the whole
operation sequence executes on without a panic, and on the resulting state
both `pop_front` and `pop_back` again succeed: the fatal sole-owner check
`Rc::try_unwrap(..).ok().unwrap()` (modelled as `refsTo s1 a = 0` inside
`pop_front`/`pop_back`, with `Except.error` the failure branch) never fires. -/
theorem pops_never_panic (ops : Ops α) :
    ∃ s : List α, execOps List.new ops = .ok s ∧
      isOk (pop_front s) = true ∧ isOk (pop_back s) = true := by
  obtain ⟨s, c, h1, hI⟩ := execOps_ok ops Inv_new
  refine ⟨s, h1, ?_, ?_⟩
  · obtain ⟨r, s', h2, _⟩ := pop_front_ok hI
    rw [h2]
    rfl
  · obtain ⟨r, s', h2, _⟩ := pop_back_ok hI
    rw [h2]
    rfl

/-! ### Traversal and adjacency -/

theorem walkNext_chain (h : Heap α) (c0 : Chain α) :
    ∀ (p q : Option Nat) (a : Nat) (e : α),
      (∀ k n, hlookup k (chainEntries p ((a, e) :: c0) q) = some n →
        hlookup k h = some n) →
      (keys ((a, e) :: c0)).Nodup →
      walkNext h c0.length (some a) = lastAddr (some a) c0 := by
  induction c0 with
  | nil =>
    intro p q a e hmono hnd
    rfl
  | cons a1e1 c1 ih =>
    intro p q a e hmono hnd
    obtain ⟨a1, e1⟩ := a1e1
    rw [keys_cons, List.nodup_cons] at hnd
    have hl : hlookup a h = some ⟨e, p, some a1⟩ := by
      apply hmono
      show (if a = a then some (⟨e, p, some a1⟩ : Node α) else
        hlookup a (chainEntries (some a) ((a1, e1) :: c1) q)) = _
      rw [if_pos rfl]
    have hstep : stepNext h (some a) = some a1 := by
      simp [stepNext, hl]
    have hmono2 : ∀ k n, hlookup k (chainEntries (some a) ((a1, e1) :: c1) q) = some n →
        hlookup k h = some n := by
      intro k n hkn
      apply hmono
      have hka : a ≠ k := by
        intro hh
        rw [← hh] at hkn
        rw [hlookup_chainEntries_none hnd.1] at hkn
        exact Option.noConfusion hkn
      show (if a = k then some (⟨e, p, some a1⟩ : Node α) else
        hlookup k (chainEntries (some a) ((a1, e1) :: c1) q)) = some n
      rw [if_neg hka]
      exact hkn
    show (stepNext h)^[c1.length + 1] (some a) = lastAddr (some a) ((a1, e1) :: c1)
    rw [Function.iterate_succ_apply, hstep, lastAddr_cons]
    exact ih (some a) q a1 e1 hmono2 hnd.2

theorem walkPrev_chain (h : Heap α) (c0 : Chain α) :
    ∀ (p q : Option Nat) (a : Nat) (e : α),
      (∀ k n, hlookup k (chainEntries p ((a, e) :: c0) q) = some n →
        hlookup k h = some n) →
      (keys ((a, e) :: c0)).Nodup →
      walkPrev h c0.length (lastAddr (some a) c0) = some a := by
  induction c0 with
  | nil =>
    intro p q a e hmono hnd
    rfl
  | cons a1e1 c1 ih =>
    intro p q a e hmono hnd
    obtain ⟨a1, e1⟩ := a1e1
    rw [keys_cons, List.nodup_cons] at hnd
    have hna1 : a ≠ a1 := by
      intro hh
      exact hnd.1 (by rw [keys_cons]; exact hh ▸ List.mem_cons_self a1 (keys c1))
    have hmono2 : ∀ k n, hlookup k (chainEntries (some a) ((a1, e1) :: c1) q) = some n →
        hlookup k h = some n := by
      intro k n hkn
      apply hmono
      have hka : a ≠ k := by
        intro hh
        rw [← hh] at hkn
        rw [hlookup_chainEntries_none hnd.1] at hkn
        exact Option.noConfusion hkn
      show (if a = k then some (⟨e, p, some a1⟩ : Node α) else
        hlookup k (chainEntries (some a) ((a1, e1) :: c1) q)) = some n
      rw [if_neg hka]
      exact hkn
    have hl1 : hlookup a1 h = some ⟨e1, some a, nextAddr c1 q⟩ := by
      apply hmono2
      show (if a1 = a1 then some (⟨e1, some a, nextAddr c1 q⟩ : Node α) else
        hlookup a1 (chainEntries (some a1) c1 q)) = _
      rw [if_pos rfl]
    have ih2 := ih (some a) q a1 e1 hmono2 hnd.2
    rw [lastAddr_cons]
    show (stepPrev h)^[c1.length + 1] (lastAddr (some a1) c1) = some a
    rw [Function.iterate_succ_apply']
    show stepPrev h (walkPrev h c1.length (lastAddr (some a1) c1)) = some a
    rw [ih2]
    simp [stepPrev, hl1]

theorem chainEntries_prev_first {x : Nat} {c : Chain α} {q : Option Nat}
    (hx : x ∉ keys c) {k : Nat} {n : Node α}
    (hl : hlookup k (chainEntries (some x) c q) = some n) (hp : n.prev = some x) :
    ∃ e rest, c = (k, e) :: rest := by
  cases c with
  | nil => exact absurd hl (by simp [chainEntries, hlookup])
  | cons ae rest =>
    obtain ⟨a, e⟩ := ae
    by_cases hk : a = k
    · subst hk
      exact ⟨e, rest, rfl⟩
    · rw [keys_cons, List.mem_cons, not_or] at hx
      have h2 : hlookup k (chainEntries (some a) rest q) = some n := by
        have h3 : hlookup k (chainEntries (some x) ((a, e) :: rest) q) =
            hlookup k (chainEntries (some a) rest q) := by
          show (if a = k then some (⟨e, some x, nextAddr rest q⟩ : Node α) else
            hlookup k (chainEntries (some a) rest q)) = _
          rw [if_neg hk]
        rw [h3] at hl
        exact hl
      have hax : (some a : Option Nat) ≠ some x := by
        intro hh
        exact hx.1 (Option.some.inj hh).symm
      exact absurd hp (chainEntries_prev_not hx.2 hax h2)

theorem chainEntries_adj_next {c : Chain α} : ∀ (p : Option Nat),
    (keys c).Nodup →
    ∀ {a : Nat} {na : Node α} {b : Nat} {nb : Node α},
      hlookup a (chainEntries p c none) = some na → na.next = some b →
      hlookup b (chainEntries p c none) = some nb → nb.prev = some a := by
  induction c with
  | nil =>
    intro p _ a na b nb hla
    exact absurd hla (by simp [chainEntries, hlookup])
  | cons a0e0 rest ih =>
    intro p hnd a na b nb hla hnext hlb
    obtain ⟨a0, e0⟩ := a0e0
    rw [keys_cons, List.nodup_cons] at hnd
    by_cases hka : a0 = a
    · subst hka
      have hna : na = ⟨e0, p, nextAddr rest none⟩ := by
        have h3 : hlookup a0 (chainEntries p ((a0, e0) :: rest) none) =
            some ⟨e0, p, nextAddr rest none⟩ := by
          show (if a0 = a0 then _ else _) = _
          rw [if_pos rfl]
        rw [h3] at hla
        exact (Option.some.inj hla).symm
      cases rest with
      | nil =>
        rw [hna] at hnext
        exact absurd hnext (by simp [nextAddr])
      | cons b1e1 rest1 =>
        obtain ⟨b1, e1⟩ := b1e1
        have hb1 : b1 = b := by
          rw [hna] at hnext
          exact Option.some.inj hnext
        have hba : a0 ≠ b := by
          intro hh
          apply hnd.1
          rw [keys_cons, hb1, ← hh]
          exact List.mem_cons_self a0 _
        have h4 : hlookup b (chainEntries p ((a0, e0) :: (b1, e1) :: rest1) none) =
            some ⟨e1, some a0, nextAddr rest1 none⟩ := by
          show (if a0 = b then _ else
            hlookup b (chainEntries (some a0) ((b1, e1) :: rest1) none)) = _
          rw [if_neg hba]
          show (if b1 = b then some (⟨e1, some a0, nextAddr rest1 none⟩ : Node α)
            else hlookup b (chainEntries (some b1) rest1 none)) = _
          rw [if_pos hb1]
        rw [h4] at hlb
        rw [← Option.some.inj hlb]
    · have hla2 : hlookup a (chainEntries (some a0) rest none) = some na := by
        have h3 : hlookup a (chainEntries p ((a0, e0) :: rest) none) =
            hlookup a (chainEntries (some a0) rest none) := by
          show (if a0 = a then _ else _) = _
          rw [if_neg hka]
        rw [h3] at hla
        exact hla
      have hkb : a0 ≠ b := by
        intro hh
        subst hh
        exact chainEntries_next_not hnd.1 (by simp) hla2 hnext
      have hlb2 : hlookup b (chainEntries (some a0) rest none) = some nb := by
        have h3 : hlookup b (chainEntries p ((a0, e0) :: rest) none) =
            hlookup b (chainEntries (some a0) rest none) := by
          show (if a0 = b then _ else _) = _
          rw [if_neg hkb]
        rw [h3] at hlb
        exact hlb
      exact ih (some a0) hnd.2 hla2 hnext hlb2

theorem chainEntries_adj_prev {c : Chain α} : ∀ (p : Option Nat),
    (keys c).Nodup → (∀ x, p = some x → x ∉ keys c) →
    ∀ {a : Nat} {na : Node α} {b : Nat} {nb : Node α},
      hlookup b (chainEntries p c none) = some nb → nb.prev = some a →
      hlookup a (chainEntries p c none) = some na → na.next = some b := by
  induction c with
  | nil =>
    intro p _ _ a na b nb hlb
    exact absurd hlb (by simp [chainEntries, hlookup])
  | cons a0e0 rest ih =>
    intro p hnd hp a na b nb hlb hprev hla
    obtain ⟨a0, e0⟩ := a0e0
    rw [keys_cons, List.nodup_cons] at hnd
    by_cases hkb : a0 = b
    · subst hkb
      have hnb : nb = ⟨e0, p, nextAddr rest none⟩ := by
        have h3 : hlookup a0 (chainEntries p ((a0, e0) :: rest) none) =
            some ⟨e0, p, nextAddr rest none⟩ := by
          show (if a0 = a0 then _ else _) = _
          rw [if_pos rfl]
        rw [h3] at hlb
        exact (Option.some.inj hlb).symm
      have hpa : p = some a := by
        rw [hnb] at hprev
        exact hprev
      have hmem : a ∈ keys ((a0, e0) :: rest) := by
        have h5 := mem_of_hlookup hla
        rw [keys_chainEntries] at h5
        exact h5
      exact absurd hmem (hp a hpa)
    · have hlb2 : hlookup b (chainEntries (some a0) rest none) = some nb := by
        have h3 : hlookup b (chainEntries p ((a0, e0) :: rest) none) =
            hlookup b (chainEntries (some a0) rest none) := by
          show (if a0 = b then _ else _) = _
          rw [if_neg hkb]
        rw [h3] at hlb
        exact hlb
      by_cases hka : a0 = a
      · subst hka
        have hna : na = ⟨e0, p, nextAddr rest none⟩ := by
          have h3 : hlookup a0 (chainEntries p ((a0, e0) :: rest) none) =
              some ⟨e0, p, nextAddr rest none⟩ := by
            show (if a0 = a0 then _ else _) = _
            rw [if_pos rfl]
          rw [h3] at hla
          exact (Option.some.inj hla).symm
        obtain ⟨eb, rest2, hrest⟩ := chainEntries_prev_first hnd.1 hlb2 hprev
        rw [hna, hrest]
        rfl
      · have hla2 : hlookup a (chainEntries (some a0) rest none) = some na := by
          have h3 : hlookup a (chainEntries p ((a0, e0) :: rest) none) =
              hlookup a (chainEntries (some a0) rest none) := by
            show (if a0 = a then _ else _) = _
            rw [if_neg hka]
          rw [h3] at hla
          exact hla
        refine ih (some a0) hnd.2 ?_ hlb2 hprev hla2
        intro x hx
        rw [← Option.some.inj hx]
        exact hnd.1

theorem Inv_traverse {s : List α} {c : Chain α} (hI : Inv s c) (hne : c ≠ []) :
    walkNext s.heap (c.length - 1) s.head = s.tail ∧
    walkPrev s.heap (c.length - 1) s.tail = s.head := by
  cases c with
  | nil => exact absurd rfl hne
  | cons ae c0 =>
    obtain ⟨a, e⟩ := ae
    have hmono : ∀ k n, hlookup k (chainEntries none ((a, e) :: c0) none) = some n →
        hlookup k s.heap = some n := by
      intro k n hkn
      rw [hI.lookup]
      exact hkn
    have hhead : s.head = some a := hI.head_eq
    have htail : s.tail = lastAddr (some a) c0 := by
      rw [hI.tail_eq, lastAddr_cons]
    constructor
    · rw [hhead, htail]
      exact walkNext_chain s.heap c0 none none a e hmono hI.nodup
    · rw [hhead, htail]
      exact walkPrev_chain s.heap c0 none none a e hmono hI.nodup

theorem Inv_adjacent {s : List α} {c : Chain α} (hI : Inv s c) :
    (∀ a na b nb, hlookup a s.heap = some na → na.next = some b →
      hlookup b s.heap = some nb → nb.prev = some a) ∧
    (∀ a na b nb, hlookup b s.heap = some nb → nb.prev = some a →
      hlookup a s.heap = some na → na.next = some b) := by
  constructor
  · intro a na b nb hla hnext hlb
    rw [hI.lookup] at hla hlb
    exact chainEntries_adj_next none hI.nodup hla hnext hlb
  · intro a na b nb hlb hprev hla
    rw [hI.lookup] at hla hlb
    exact chainEntries_adj_prev none hI.nodup
      (fun x hx => Option.noConfusion hx) hlb hprev hla

theorem execOps_push (ops : Ops α) :
    ∀ {s : List α} {c : Chain α}, Inv s c → (∀ op ∈ ops, op.isPush = true) →
      ∃ s' c', execOps s ops = .ok s' ∧ Inv s' c' ∧
        c'.map Prod.snd = absList (c.map Prod.snd) ops ∧
        c'.length = c.length + ops.length := by
  induction ops with
  | nil =>
    intro s c hI _
    exact ⟨s, c, rfl, hI, rfl, rfl⟩
  | cons op rest ih =>
    intro s c hI hp
    have hrest : ∀ o ∈ rest, Op.isPush o = true :=
      fun o ho => hp o (List.mem_cons_of_mem _ ho)
    cases op with
    | pushF e =>
      obtain ⟨s2, c2, h2, hI2, hmap, hlen⟩ := ih (push_front_inv hI e) hrest
      refine ⟨s2, c2, ?_, hI2, hmap, ?_⟩
      · show (match execOp s (Op.pushF e) with
          | Except.error msg => (Except.error msg : Except String (List α))
          | Except.ok s1 => execOps s1 rest) = Except.ok s2
        exact h2
      · rw [List.length_cons] at hlen
        show c2.length = c.length + (rest.length + 1)
        omega
    | pushB e =>
      obtain ⟨s2, c2, h2, hI2, hmap, hlen⟩ := ih (push_back_inv hI e) hrest
      refine ⟨s2, c2, ?_, ?_, ?_⟩
      · show (match execOp s (Op.pushB e) with
          | Except.error msg => (Except.error msg : Except String (List α))
          | Except.ok s1 => execOps s1 rest) = Except.ok s2
        exact h2
      · exact hI2
      · constructor
        · rw [List.map_append] at hmap
          exact hmap
        · rw [List.length_append, List.length_cons] at hlen
          show c2.length = c.length + (rest.length + 1)
          simp at hlen
          omega
    | popF =>
      exact absurd (hp _ (List.mem_cons_self _ _)) (by simp [Op.isPush])
    | popB =>
      exact absurd (hp _ (List.mem_cons_self _ _)) (by simp [Op.isPush])

/-- C2: after any nonempty sequence of `push_front`/`push_back` operations
from the empty list (N pushes, hence N nodes), following `next` from the
head anchor reaches the tail anchor's node in exactly N-1 steps, following
`prev` from the tail anchor reaches the head anchor's node in exactly N-1
steps, and for adjacent nodes A, B: `A.next = B` iff `B.prev = A`. -/
theorem push_link_symmetry (ops : Ops α) (hpush : ∀ op ∈ ops, op.isPush = true)
    (hne : ops ≠ []) :
    ∃ s : List α, execOps List.new ops = .ok s ∧
      walkNext s.heap (ops.length - 1) s.head = s.tail ∧
      walkPrev s.heap (ops.length - 1) s.tail = s.head ∧
      (∀ a na b nb, hlookup a s.heap = some na → na.next = some b →
        hlookup b s.heap = some nb → nb.prev = some a) ∧
      (∀ a na b nb, hlookup b s.heap = some nb → nb.prev = some a →
        hlookup a s.heap = some na → na.next = some b) := by
  obtain ⟨s, c, h1, hI, hmap, hlen⟩ := execOps_push ops Inv_new hpush
  have hclen : c.length = ops.length := by
    rw [hlen]
    simp
  have hcne : c ≠ [] := by
    intro hh
    rw [hh] at hclen
    exact hne (List.length_eq_zero.mp hclen.symm)
  obtain ⟨hw1, hw2⟩ := Inv_traverse hI hcne
  obtain ⟨hadj1, hadj2⟩ := Inv_adjacent hI
  rw [hclen] at hw1 hw2
  exact ⟨s, h1, hw1, hw2, hadj1, hadj2⟩

/-- Witness for C2 on the concrete push sequence of the repository's tests. -/
theorem push_link_symmetry_witness :
    (∀ op ∈ ([Op.pushF 2, Op.pushF 3, Op.pushB 1] : Ops Nat), op.isPush = true) ∧
    ([Op.pushF 2, Op.pushF 3, Op.pushB 1] : Ops Nat) ≠ [] ∧
    ∃ s : List Nat,
      execOps List.new [Op.pushF 2, Op.pushF 3, Op.pushB 1] = .ok s ∧
      walkNext s.heap 2 s.head = s.tail ∧
      walkPrev s.heap 2 s.tail = s.head ∧
      (∀ a na b nb, hlookup a s.heap = some na → na.next = some b →
        hlookup b s.heap = some nb → nb.prev = some a) ∧
      (∀ a na b nb, hlookup b s.heap = some nb → nb.prev = some a →
        hlookup a s.heap = some na → na.next = some b) :=
  ⟨by decide, by decide, push_link_symmetry _ (by decide) (by decide)⟩

/-! ### Draining -/

theorem drain_front_succ (fuel : Nat) (s : List α) :
    drain_front (fuel + 1) s =
      match pop_front s with
      | Except.error msg => Except.error msg
      | Except.ok (none, s1) => Except.ok ([], s1)
      | Except.ok (some e, s1) =>
        match drain_front fuel s1 with
        | Except.error msg => Except.error msg
        | Except.ok (l, s2) => Except.ok (e :: l, s2) := rfl

theorem drain_back_succ (fuel : Nat) (s : List α) :
    drain_back (fuel + 1) s =
      match pop_back s with
      | Except.error msg => Except.error msg
      | Except.ok (none, s1) => Except.ok ([], s1)
      | Except.ok (some e, s1) =>
        match drain_back fuel s1 with
        | Except.error msg => Except.error msg
        | Except.ok (l, s2) => Except.ok (e :: l, s2) := rfl

theorem drop_loop_succ (fuel : Nat) (s : List α) :
    drop_loop (fuel + 1) s =
      match pop_front s with
      | Except.error msg => Except.error msg
      | Except.ok (none, s1) => Except.ok (0, s1)
      | Except.ok (some _, s1) =>
        match drop_loop fuel s1 with
        | Except.error msg => Except.error msg
        | Except.ok (k, s2) => Except.ok (k + 1, s2) := rfl

theorem drain_front_spec (c : Chain α) :
    ∀ {s : List α}, Inv s c →
      ∃ s', drain_front (c.length + 1) s = .ok (c.map Prod.snd, s') ∧ Inv s' [] := by
  induction c with
  | nil =>
    intro s hI
    refine ⟨s, ?_, hI⟩
    show drain_front (0 + 1) s = _
    rw [drain_front_succ, pop_front_nil hI]
    rfl
  | cons ae c0 ih =>
    intro s hI
    obtain ⟨a, e⟩ := ae
    obtain ⟨s1, h1, hI1⟩ := pop_front_cons hI
    obtain ⟨s2, h2, hI2⟩ := ih hI1
    refine ⟨s2, ?_, hI2⟩
    show drain_front (c0.length + 1 + 1) s = _
    rw [drain_front_succ (c0.length + 1) s, h1]
    show (match drain_front (c0.length + 1) s1 with
      | Except.error msg => (Except.error msg : Except String (Vals α × List α))
      | Except.ok (l, s2) => Except.ok (e :: l, s2)) = _
    rw [h2]
    rfl

theorem drop_loop_spec (c : Chain α) :
    ∀ {s : List α}, Inv s c →
      ∃ s', drop_loop (c.length + 1) s = .ok (c.length, s') ∧ Inv s' [] := by
  induction c with
  | nil =>
    intro s hI
    refine ⟨s, ?_, hI⟩
    show drop_loop (0 + 1) s = _
    rw [drop_loop_succ, pop_front_nil hI]
    rfl
  | cons ae c0 ih =>
    intro s hI
    obtain ⟨a, e⟩ := ae
    obtain ⟨s1, h1, hI1⟩ := pop_front_cons hI
    obtain ⟨s2, h2, hI2⟩ := ih hI1
    refine ⟨s2, ?_, hI2⟩
    show drop_loop (c0.length + 1 + 1) s = _
    rw [drop_loop_succ (c0.length + 1) s, h1]
    show (match drop_loop (c0.length + 1) s1 with
      | Except.error msg => (Except.error msg : Except String (Nat × List α))
      | Except.ok (k, s2) => Except.ok (k + 1, s2)) = _
    rw [h2]
    rfl

theorem drain_back_spec (c : Chain α) :
    ∀ {s : List α}, Inv s c →
      ∃ s', drain_back (c.length + 1) s = .ok ((c.map Prod.snd).reverse, s') ∧
        Inv s' [] := by
  induction c using List.reverseRecOn with
  | nil =>
    intro s hI
    refine ⟨s, ?_, hI⟩
    show drain_back (0 + 1) s = _
    rw [drain_back_succ, pop_back_nil hI]
    rfl
  | append_singleton c0 x ih =>
    intro s hI
    obtain ⟨aL, eL⟩ := x
    obtain ⟨s1, h1, hI1⟩ := pop_back_concat hI
    obtain ⟨s2, h2, hI2⟩ := ih hI1
    refine ⟨s2, ?_, hI2⟩
    have hlen : (c0 ++ [(aL, eL)]).length + 1 = (c0.length + 1) + 1 := by simp
    rw [hlen, drain_back_succ (c0.length + 1) s, h1]
    show (match drain_back (c0.length + 1) s1 with
      | Except.error msg => (Except.error msg : Except String (Vals α × List α))
      | Except.ok (l, s2) => Except.ok (eL :: l, s2)) = _
    rw [h2]
    simp

/-- C8: discarding the list runs `while self.pop_front().is_some() {}`;
on a well-formed list of N nodes the loop performs exactly N successful
pops (fuel N+1 suffices, so it terminates) and leaves both anchors `None`
and the heap empty — every node has been released, iteratively. -/
theorem drop_loop_drains {s : List α} {c : Chain α} (hI : Inv s c) :
    ∃ s', drop_loop (c.length + 1) s = .ok (c.length, s') ∧
      s'.head = none ∧ s'.tail = none ∧ s'.heap = [] := by
  obtain ⟨s', h1, hI'⟩ := drop_loop_spec c hI
  exact ⟨s', h1, hI'.head_eq, hI'.tail_eq, hI'.perm.eq_nil⟩

/-- Witness for C8: the three-element list of the repository's tests is
fully torn down in exactly 3 pops. -/
theorem drop_loop_drains_witness :
    Inv (push_back (push_front (push_front (List.new : List Nat) 2) 3) 1)
      [(1, 3), (0, 2), (2, 1)] ∧
    ∃ s', drop_loop 4 (push_back (push_front (push_front (List.new : List Nat) 2) 3) 1) =
        .ok (3, s') ∧ s'.head = none ∧ s'.tail = none ∧ s'.heap = [] :=
  ⟨⟨by decide, by decide, by decide, by decide, by decide⟩,
    @drop_loop_drains Nat (push_back (push_front (push_front List.new 2) 3) 1)
      [(1, 3), (0, 2), (2, 1)]
      ⟨by decide, by decide, by decide, by decide, by decide⟩⟩

/-- C3: pushing N elements (any mix of push_front/push_back) into the empty
list and then draining through pop_front alone yields exactly the N stored
values front-to-back (LIFO relative to the front pushes), and draining
through pop_back alone yields the reverse sequence; both leave the list
empty with an empty heap (no leaked nodes). -/
theorem push_drain_roundtrip (ops : Ops α) (hpush : ∀ op ∈ ops, op.isPush = true) :
    ∃ s : List α, execOps List.new ops = .ok s ∧
      (absList [] ops).length = ops.length ∧
      (∃ s1, drain_front (ops.length + 1) s = .ok (absList [] ops, s1) ∧
        s1.head = none ∧ s1.tail = none ∧ s1.heap = []) ∧
      (∃ s2, drain_back (ops.length + 1) s = .ok ((absList [] ops).reverse, s2) ∧
        s2.head = none ∧ s2.tail = none ∧ s2.heap = []) := by
  obtain ⟨s, c, h1, hI, hmap, hlen⟩ := execOps_push ops Inv_new hpush
  have hclen : c.length = ops.length := by
    rw [hlen]
    simp
  have habs : c.map Prod.snd = absList [] ops := hmap
  refine ⟨s, h1, ?_, ?_, ?_⟩
  · rw [← habs, List.length_map, hclen]
  · obtain ⟨s1, hd, hI1⟩ := drain_front_spec c hI
    rw [hclen, habs] at hd
    exact ⟨s1, hd, hI1.head_eq, hI1.tail_eq, hI1.perm.eq_nil⟩
  · obtain ⟨s2, hd, hI2⟩ := drain_back_spec c hI
    rw [hclen, habs] at hd
    exact ⟨s2, hd, hI2.head_eq, hI2.tail_eq, hI2.perm.eq_nil⟩

/-- Witness for C3 on the repository's test sequence: draining forward
gives [3, 2, 1]; draining backward gives [1, 2, 3]. -/
theorem push_drain_roundtrip_witness :
    (∀ op ∈ ([Op.pushF 2, Op.pushF 3, Op.pushB 1] : Ops Nat), op.isPush = true) ∧
    absList [] ([Op.pushF 2, Op.pushF 3, Op.pushB 1] : Ops Nat) = [3, 2, 1] ∧
    ∃ s : List Nat,
      execOps List.new [Op.pushF 2, Op.pushF 3, Op.pushB 1] = .ok s ∧
      (absList [] ([Op.pushF 2, Op.pushF 3, Op.pushB 1] : Ops Nat)).length = 3 ∧
      (∃ s1, drain_front 4 s = .ok (absList [] ([Op.pushF 2, Op.pushF 3, Op.pushB 1] : Ops Nat), s1) ∧
        s1.head = none ∧ s1.tail = none ∧ s1.heap = []) ∧
      (∃ s2, drain_back 4 s = .ok ((absList [] ([Op.pushF 2, Op.pushF 3, Op.pushB 1] : Ops Nat)).reverse, s2) ∧
        s2.head = none ∧ s2.tail = none ∧ s2.heap = []) :=
  ⟨by decide, by decide, push_drain_roundtrip _ (by decide)⟩

/-- C4: on an empty list (both anchors `None`), `pop_front`, `pop_back` and
all four peeks return the "no element" result, and the state is returned
unchanged. -/
theorem empty_list_noop (s : List α) (hh : s.head = none) (ht : s.tail = none) :
    pop_front s = .ok (none, s) ∧ pop_back s = .ok (none, s) ∧
    peek_front s = (none, s) ∧ peek_back s = (none, s) ∧
    peek_front_mut s = (none, s) ∧ peek_back_mut s = (none, s) := by
  refine ⟨?_, ?_, ?_, ?_, ?_, ?_⟩ <;>
    simp [pop_front, pop_back, peek_front, peek_back, peek_front_mut,
      peek_back_mut, hh, ht]

/-- Witness for C4 at the freshly constructed empty list. -/
theorem empty_list_noop_witness :
    pop_front (List.new : List Nat) = .ok (none, List.new) ∧
    pop_back (List.new : List Nat) = .ok (none, List.new) ∧
    peek_front (List.new : List Nat) = (none, List.new) ∧
    peek_back (List.new : List Nat) = (none, List.new) ∧
    peek_front_mut (List.new : List Nat) = (none, List.new) ∧
    peek_back_mut (List.new : List Nat) = (none, List.new) :=
  empty_list_noop List.new rfl rfl

/-- C5: popping the sole element from a one-element list (from either end)
returns that element and clears both the head and tail anchors to `None`. -/
theorem pop_singleton {s : List α} {a : Nat} {e : α} (hI : Inv s [(a, e)]) :
    (∃ s', pop_front s = .ok (some e, s') ∧ s'.head = none ∧ s'.tail = none) ∧
    (∃ s', pop_back s = .ok (some e, s') ∧ s'.head = none ∧ s'.tail = none) := by
  constructor
  · obtain ⟨s', h1, hI'⟩ := pop_front_cons hI
    exact ⟨s', h1, hI'.head_eq, hI'.tail_eq⟩
  · obtain ⟨s', h1, hI'⟩ := @pop_back_concat α s a e [] hI
    exact ⟨s', h1, hI'.head_eq, hI'.tail_eq⟩

/-- Witness for C5 on the singleton list `push_front(new, 5)`. -/
theorem pop_singleton_witness :
    Inv (push_front (List.new : List Nat) 5) [(0, 5)] ∧
    ((∃ s', pop_front (push_front (List.new : List Nat) 5) = .ok (some 5, s') ∧
        s'.head = none ∧ s'.tail = none) ∧
      (∃ s', pop_back (push_front (List.new : List Nat) 5) = .ok (some 5, s') ∧
        s'.head = none ∧ s'.tail = none)) :=
  ⟨⟨by decide, by decide, by decide, by decide, by decide⟩,
    @pop_singleton Nat (push_front List.new 5) 0 5
      ⟨by decide, by decide, by decide, by decide, by decide⟩⟩

/-- C6: `push_front` on an empty list points both anchors at the new node,
which starts with `prev = None` and `next = None`; on a non-empty list it
sets the old head's `prev` to the new node, the new node's `next` to the old
head, moves the head anchor to the new node, leaves the tail anchor
unchanged, and touches no other node. -/
theorem push_front_cases (s : List α) (e : α) :
    (s.head = none →
      push_front s e =
        { head := some s.fresh, tail := some s.fresh,
          heap := (s.fresh, ⟨e, none, none⟩) :: s.heap, fresh := s.fresh + 1 }) ∧
    (∀ c oa, Inv s c → s.head = some oa →
      (push_front s e).head = some s.fresh ∧
      (push_front s e).tail = s.tail ∧
      hlookup s.fresh (push_front s e).heap = some ⟨e, none, some oa⟩ ∧
      hlookup oa (push_front s e).heap =
        (hlookup oa s.heap).map (fun n => { n with prev := some s.fresh }) ∧
      ∀ b, b ≠ s.fresh → b ≠ oa →
        hlookup b (push_front s e).heap = hlookup b s.heap) := by
  constructor
  · intro hh
    rw [push_front, hh]
    rfl
  · intro c oa hI hh
    have hoa : oa < s.fresh := by
      cases c with
      | nil =>
        have h2 : s.head = none := hI.head_eq
        rw [h2] at hh
        exact Option.noConfusion hh
      | cons ae c0 =>
        obtain ⟨a0, e0⟩ := ae
        have h2 : s.head = some a0 := hI.head_eq
        rw [hh] at h2
        rw [Option.some.inj h2]
        exact hI.fresh_big a0 (by rw [keys_cons]; exact List.mem_cons_self _ _)
    have hne : oa ≠ s.fresh := Nat.ne_of_lt hoa
    have hpf : push_front s e =
        { head := some s.fresh, tail := s.tail,
          heap := (s.fresh, ⟨e, none, some oa⟩) :: setPrev s.heap oa (some s.fresh),
          fresh := s.fresh + 1 } := by
      rw [push_front, hh]
      rfl
    rw [hpf]
    refine ⟨rfl, rfl, ?_, ?_, ?_⟩
    · show (if s.fresh = s.fresh then some (⟨e, none, some oa⟩ : Node α) else
        hlookup s.fresh (setPrev s.heap oa (some s.fresh))) = _
      rw [if_pos rfl]
    · show (if s.fresh = oa then some (⟨e, none, some oa⟩ : Node α) else
        hlookup oa (setPrev s.heap oa (some s.fresh))) = _
      rw [if_neg (Ne.symm hne), hlookup_setPrev_self]
    · intro b hb1 hb2
      show (if s.fresh = b then some (⟨e, none, some oa⟩ : Node α) else
        hlookup b (setPrev s.heap oa (some s.fresh))) = _
      rw [if_neg (Ne.symm hb1), hlookup_setPrev_ne (Ne.symm hb2)]

/-- Witness for C6: the empty case at `new`, the non-empty case on the
singleton list `push_front(new, 5)` (old head at address 0, new node at
address 1), with the frame checked at the absent address 5. -/
theorem push_front_cases_witness :
    (push_front (List.new : List Nat) 7 =
      { head := some 0, tail := some 0,
        heap := [(0, ⟨7, none, none⟩)], fresh := 1 }) ∧
    (push_front (push_front (List.new : List Nat) 5) 7).head = some 1 ∧
    (push_front (push_front (List.new : List Nat) 5) 7).tail =
      (push_front (List.new : List Nat) 5).tail ∧
    hlookup 1 (push_front (push_front (List.new : List Nat) 5) 7).heap =
      some ⟨7, none, some 0⟩ ∧
    hlookup 0 (push_front (push_front (List.new : List Nat) 5) 7).heap =
      (hlookup 0 (push_front (List.new : List Nat) 5).heap).map
        (fun n => { n with prev := some 1 }) ∧
    hlookup 5 (push_front (push_front (List.new : List Nat) 5) 7).heap =
      hlookup 5 (push_front (List.new : List Nat) 5).heap := by
  have h := (push_front_cases (push_front (List.new : List Nat) 5) 7).2 [(0, 5)] 0
    ⟨by decide, by decide, by decide, by decide, by decide⟩ rfl
  exact ⟨(push_front_cases (List.new : List Nat) 7).1 rfl,
    h.1, h.2.1, h.2.2.1, h.2.2.2.1, h.2.2.2.2 5 (by decide) (by decide)⟩

/-- C7: the draining iterator's forward `next` is exactly `pop_front` on the
wrapped list and `next_back` is exactly `pop_back`; on the test list built by
push_front(2), push_front(3), push_back(1), alternating front/back pulls
yield 3, then 1, then 2, and then `None` from both ends. -/
theorem into_iter_spec :
    (∀ s : List Nat, IntoIter.next (into_iter s) =
        (pop_front s).map (fun rs => (rs.1, ⟨rs.2⟩)) ∧
      IntoIter.next_back (into_iter s) =
        (pop_back s).map (fun rs => (rs.1, ⟨rs.2⟩))) ∧
    (∃ i1 i2 i3 : IntoIter Nat,
      IntoIter.next (into_iter
        (push_back (push_front (push_front List.new 2) 3) 1)) = .ok (some 3, i1) ∧
      IntoIter.next_back i1 = .ok (some 1, i2) ∧
      IntoIter.next i2 = .ok (some 2, i3) ∧
      IntoIter.next_back i3 = .ok (none, i3) ∧
      IntoIter.next i3 = .ok (none, i3)) := by
  constructor
  · intro s
    exact ⟨rfl, rfl⟩
  · refine ⟨⟨⟨some 0, some 2, [(2, ⟨1, some 0, none⟩), (0, ⟨2, none, some 2⟩)], 3⟩⟩,
      ⟨⟨some 0, some 0, [(0, ⟨2, none, none⟩)], 3⟩⟩,
      ⟨⟨none, none, [], 3⟩⟩, ?_, ?_, ?_, ?_, ?_⟩ <;> rfl

theorem linkMap_setElem (h : Heap α) (a : Nat) (e : α) :
    (setElem h a e).map
        (fun kn => ((kn.1 : Nat), (⟨(), kn.2.prev, kn.2.next⟩ : Node Unit))) =
      h.map (fun kn => (kn.1, ⟨(), kn.2.prev, kn.2.next⟩)) := by
  induction h with
  | nil => rfl
  | cons kn rest ih =>
    obtain ⟨k, n⟩ := kn
    show (k, (⟨(), (if k = a then { n with elem := e } else n).prev,
          (if k = a then { n with elem := e } else n).next⟩ : Node Unit)) ::
        (setElem rest a e).map
          (fun kn => ((kn.1 : Nat), (⟨(), kn.2.prev, kn.2.next⟩ : Node Unit))) =
      (k, ⟨(), n.prev, n.next⟩) ::
        rest.map (fun kn => (kn.1, ⟨(), kn.2.prev, kn.2.next⟩))
    rw [ih]
    by_cases hk : k = a
    · simp [hk]
    · simp [hk]

/-- C9: the read-only peeks return the receiver state unchanged, and a write
through the mutable-peek view (which targets only the element field of the
head or tail node) leaves the entire link structure — both anchors and every
node's `prev`/`next` — identical. -/
theorem peek_frame (s : List α) (e : α) :
    (peek_front s).2 = s ∧ (peek_back s).2 = s ∧
    (peek_front_mut s).2 = s ∧ (peek_back_mut s).2 = s ∧
    linkStruct (write_front s e) = linkStruct s ∧
    linkStruct (write_back s e) = linkStruct s := by
  refine ⟨rfl, rfl, rfl, rfl, ?_, ?_⟩
  · cases hh : s.head with
    | none => simp [write_front, hh]
    | some a => simp [write_front, hh, linkStruct, linkMap_setElem]
  · cases ht : s.tail with
    | none => simp [write_back, ht]
    | some a => simp [write_back, ht, linkStruct, linkMap_setElem]

/-- C10: `Default::default()` is definitionally `List::new()` — the empty
list with both anchors `None` — so every operation on a defaulted list
coincides with the operation on a new list. -/
theorem default_eq_new :
    (List.default : List α) = List.new ∧
    (List.default : List α).head = none ∧ (List.default : List α).tail = none ∧
    (∀ e, push_front (List.default : List α) e = push_front List.new e) ∧
    (∀ e, push_back (List.default : List α) e = push_back List.new e) ∧
    pop_front (List.default : List α) = pop_front List.new ∧
    pop_back (List.default : List α) = pop_back List.new ∧
    peek_front (List.default : List α) = peek_front List.new ∧
    peek_back (List.default : List α) = peek_back List.new :=
  ⟨rfl, rfl, rfl, fun _ => rfl, fun _ => rfl, rfl, rfl, rfl, rfl⟩

end Fourth
